import Mathlib

/-!
Shallow embedding of the ransomware-defense backup/restore and threat-scoring
core (Rust sources under `src/backend/src/`): `storage.rs`, `backup.rs`,
`detector.rs`, `crypto.rs`, `config.rs`.

Modelling conventions:
* bytes are `Nat`, byte strings are `List Nat`;
* digests (the Rust code's BLAKE3 hex strings) are modelled as `List Nat`;
  the Rust `&block_hash[..2]` prefixing becomes `List.take 2`;
* the cryptographic / compression primitives (`blake3::hash`,
  `Crypto::encrypt` / `Crypto::decrypt` over AES-256-GCM, `zstd::encode_all` /
  `zstd::decode_all`) are external library calls, modelled as an abstract
  `CryptoOps` record; theorems that need their contracts (decrypt inverts
  encrypt, decompress inverts compress, hash collision-freedom) take them as
  hypotheses, exactly the boundary contract stated for these black boxes;
* the filesystem is explicit: the watched file's contents arrive as an
  `Option FsFileInfo` argument (`none` models `!file_path.exists()`), the
  backup store (block objects plus per-path JSON manifests) is a `StoreState`
  of association lists, keyed by digest resp. source path (the manifest file
  name `hash(path).json` is injective in the path for a collision-free hash);
* `tokio::fs` writes always succeed in the model; timestamps are `Nat`.
-/

namespace MedGuard

/-- Byte strings. -/
abbrev Bytes := List Nat

/-- Content digests (hex strings in the Rust code, modelled as char lists). -/
abbrev Digest := List Nat

/-- The external crypto/compression boundary (`crypto.rs`, `backup.rs` lines
118-124): `hash`, `encrypt`, `decrypt`, `compress`, `decompress`.  `decrypt`
and `decompress` are fallible (`Result` in Rust); `none` models their error
case (AEAD authentication failure / corrupt compressed data). -/
structure CryptoOps where
  hash : Bytes → Digest
  encrypt : Bytes → Bytes
  decrypt : Bytes → Option Bytes
  compress : Bytes → Bytes
  decompress : Bytes → Option Bytes

/-- Fuel-driven worker for `chunks` (structural recursion on `fuel` so that it
reduces in the kernel; `fuel := l.length` always suffices for `bs > 0`). -/
def chunksGo (bs : Nat) : Nat → Bytes → List Bytes
  | _, [] => []
  | 0, _ :: _ => []
  | fuel + 1, x :: xs => ((x :: xs).take bs) :: chunksGo bs fuel ((x :: xs).drop bs)

/-- Rust's `slice::chunks(bs)`: split into `bs`-sized chunks, the final chunk
possibly shorter, no chunk empty; the empty slice yields no chunks. -/
def chunks (bs : Nat) (l : Bytes) : List Bytes :=
  chunksGo bs l.length l

/-- `FileMetadata` (backup.rs lines 17-22): size, permission bits,
modification time. -/
structure FileMetadata where
  size : Nat
  permissions : Nat
  modified : Nat
deriving DecidableEq, Repr

/-- `BackupVersion` (backup.rs lines 8-15). -/
structure BackupVersion where
  version : Nat
  timestamp : Nat
  file_hash : Digest
  block_hashes : List Digest
  metadata : FileMetadata
deriving DecidableEq, Repr

/-- `BackupInfo` (storage.rs lines 10-14): per-source-path backup history. -/
structure BackupInfo where
  file_path : String
  versions : List BackupVersion
deriving DecidableEq, Repr

/-- The OS-supplied view of a watched file: contents, permission bits,
modification time (what `std::fs::read` and `std::fs::metadata` return). -/
structure FsFileInfo where
  data : Bytes
  perms : Nat
  mtime : Nat
deriving DecidableEq, Repr

/-- First-match association-list lookup (models a filesystem keyed by
path / digest). -/
def alookup {α β : Type} [DecidableEq α] (k : α) : List (α × β) → Option β
  | [] => none
  | (a, b) :: t => if a = k then some b else alookup k t

/-- Overwrite-or-append association-list update (models `fs::write` to a
keyed location). -/
def aset {α β : Type} [DecidableEq α] (k : α) (v : β) : List (α × β) → List (α × β)
  | [] => [(k, v)]
  | (a, b) :: t => if a = k then (k, v) :: t else (a, b) :: aset k v t

/-- `BackupEngine::create_backup` (backup.rs lines 37-58), with the file
contents and metadata supplied by the explicit filesystem arguments: whole-file
digest, per-chunk digests at block size `bs`, placeholder version number
(overwritten by the storage layer), capture of size / permissions / mtime. -/
def createBackup (C : CryptoOps) (bs : Nat) (fi : FsFileInfo) (now : Nat) : BackupVersion :=
  { version := 1
    timestamp := now
    file_hash := C.hash fi.data
    block_hashes := (chunks bs fi.data).map C.hash
    metadata := { size := fi.data.length, permissions := fi.perms, modified := fi.mtime } }

/-- The persisted backup store: content-addressed block objects
(`blocks/<digest[..2]>/<digest>`, keyed here by digest) and per-source-path
manifests (`<hash(path)>.json`, keyed here by source path). -/
structure StoreState where
  blocks : List (Digest × Bytes)
  manifests : List (String × BackupInfo)
deriving DecidableEq, Repr

/-- `Storage::get_block_path` (storage.rs lines 169-173): the first two
characters of the digest as subdirectory, the digest as file name. -/
def getBlockPath (d : Digest) : Digest × Digest :=
  (d.take 2, d)

/-- The body of the block-storing loop (storage.rs lines 72-80): write the
compressed-then-encrypted chunk only if no object with that digest exists. -/
def putIfAbsent (C : CryptoOps) (bl : List (Digest × Bytes)) (h : Digest) (chunk : Bytes) :
    List (Digest × Bytes) :=
  if (alookup h bl).isSome then bl else (h, C.encrypt (C.compress chunk)) :: bl

/-- The block-storing loop (storage.rs lines 67-81): iterate over the file's
4096-byte chunks paired with the digests `backup_version.block_hashes[idx]`. -/
def storeFileBlocks (C : CryptoOps) (bl : List (Digest × Bytes))
    (pairs : List (Bytes × Digest)) : List (Digest × Bytes) :=
  pairs.foldl (fun b p => putIfAbsent C b p.2 p.1) bl

/-- The commit tail of `Storage::backup_file` (storage.rs lines 66-98): store
blocks, assign `version := versions.len() + 1`, append, trim the oldest 10
when the count exceeds 100 (`drain(0..10)`), persist the manifest. -/
def backupCommit (C : CryptoOps) (st : StoreState) (path : String) (fi : FsFileInfo)
    (bv : BackupVersion) (info : BackupInfo) : StoreState :=
  let blocks' := storeFileBlocks C st.blocks ((chunks 4096 fi.data).zip bv.block_hashes)
  let nv := { bv with version := info.versions.length + 1 }
  let versions1 := info.versions ++ [nv]
  let versions2 := if versions1.length > 100 then versions1.drop 10 else versions1
  { blocks := blocks'
    manifests := aset path { info with versions := versions2 } st.manifests }

/-- `Storage::backup_file` (storage.rs lines 39-99).  `file = none` models
`!file_path.exists()` (early `Ok(())`).  The manifest is loaded with
`unwrap_or_else` (missing/corrupt history treated as empty); if the last
version's whole-file digest equals the new one, the call is a no-op. -/
def backupFile (C : CryptoOps) (st : StoreState) (path : String)
    (file : Option FsFileInfo) (now : Nat) : Except String StoreState :=
  match file with
  | none => .ok st
  | some fi =>
    let bv := createBackup C 4096 fi now
    let info := (alookup path st.manifests).getD { file_path := path, versions := [] }
    match info.versions.getLast? with
    | some last =>
      if last.file_hash = bv.file_hash then .ok st
      else .ok (backupCommit C st path fi bv info)
    | none => .ok (backupCommit C st path fi bv info)

/-- The block-reassembly loop of `Storage::restore_file` (storage.rs lines
118-131): for each digest in order fetch the object, decrypt, decompress,
append. -/
def restoreBlocks (C : CryptoOps) (bl : List (Digest × Bytes)) : List Digest → Except String Bytes
  | [] => .ok []
  | h :: t =>
    match alookup h bl with
    | none => .error "Block not found"
    | some enc =>
      match C.decrypt enc with
      | none => .error "Decryption failed"
      | some comp =>
        match C.decompress comp with
        | none => .error "Decompression failed"
        | some d =>
          match restoreBlocks C bl t with
          | .error e => .error e
          | .ok rest => .ok (d ++ rest)

/-- `Storage::restore_file` (storage.rs lines 101-138) up to the final
`fs::write`: load the manifest (an unreadable manifest is an error here,
unlike backup), bail if the history is empty, select the requested version or
the latest, reassemble the bytes from the blocks. -/
def restoreFile (C : CryptoOps) (st : StoreState) (path : String)
    (version : Option Nat) : Except String Bytes :=
  match alookup path st.manifests with
  | none => .error "Backup info not found"
  | some info =>
    if info.versions = [] then .error "No backup versions found"
    else
      match
        (match version with
         | some v => info.versions.find? (fun ver => BackupVersion.version ver = v)
         | none => info.versions.getLast?) with
      | none => .error "Version not found"
      | some bv => restoreBlocks C st.blocks bv.block_hashes

/-- A filesystem mutation performed by restore. -/
inductive FsOp where
  | writeFile (path : String) (data : Bytes)
  | rename (src dst : String)
deriving DecidableEq, Repr

/-- The filesystem-mutation trace of `Storage::restore_file`: on success the
single direct `fs::write(&path, file_data)` of storage.rs line 134; every
failure propagates with `?` before any write happens. -/
def restoreFileOps (C : CryptoOps) (st : StoreState) (path : String)
    (version : Option Nat) : Except String (List FsOp) :=
  (restoreFile C st path version).map (fun d => [FsOp.writeFile path d])

/-- Apply one filesystem mutation to a path-keyed filesystem. -/
def applyFsOp (fs : List (String × Bytes)) : FsOp → List (String × Bytes)
  | .writeFile p d => aset p d fs
  | .rename src dst =>
    match alookup src fs with
    | none => fs
    | some d => aset dst d (fs.filter (fun e => decide (e.1 ≠ src)))

/-- The effect of one `restore_file` call on the target filesystem: apply the
trace on success, leave the filesystem untouched on error. -/
def runRestore (C : CryptoOps) (st : StoreState) (path : String) (version : Option Nat)
    (fs : List (String × Bytes)) : List (String × Bytes) :=
  match restoreFileOps C st path version with
  | .error _ => fs
  | .ok ops => ops.foldl applyFsOp fs

/-- `BackupEngine::calculate_incremental_changes` (backup.rs lines 98-116):
re-chunk, hash, and compare positionally; index `idx` is changed when it has
no previous entry (`idx >= previous_blocks.len()`) or the digest differs. -/
def calculate_incremental_changes (C : CryptoOps) (bs : Nat) (current : Bytes)
    (previous : List Digest) : List Nat :=
  let currentHashes := (chunks bs current).map C.hash
  currentHashes.enum.filterMap (fun p =>
    if previous.length ≤ p.1 then some p.1
    else if p.2 ≠ previous.getD p.1 [] then some p.1
    else none)

/-- A file-change event as seen by the detector (monitor.rs lines 11-15),
restricted to what `check_threat` reads: the path and its extension.  The
extension is carried as a field because `Path::extension()` is an OS path
parser outside this model (`some "locked"` for a path ending `.locked`,
`none` for an extensionless path). -/
structure DetectorEvent where
  path : String
  ext : Option String
deriving DecidableEq, Repr

/-- `DetectionConfig` (config.rs lines 21-27), the fields `check_threat`
reads.  The `f64` entropy threshold is modelled in `ℚ`. -/
structure DetectionCfg where
  entropy_threshold : ℚ
  rapid_change_threshold : Nat
  suspicious_extensions : List String
deriving DecidableEq, Repr

/-- The `Default` detection configuration (config.rs lines 73-84). -/
def defaultDetectionCfg : DetectionCfg :=
  { entropy_threshold := 7.5
    rapid_change_threshold := 50
    suspicious_extensions := [".locked", ".encrypted", ".crypto", ".crypt", ".enc"] }

/-- `ThreatAlert` (detector.rs lines 10-17). -/
structure ThreatAlert where
  timestamp : Nat
  score : Nat
  description : String
  file_path : String
  threat_type : String
deriving DecidableEq, Repr

/-- Check 2 of `check_threat` (detector.rs lines 66-75): the number of window
events whose path extension, prefixed with a dot, is in the configured
suspicious set. -/
def suspiciousCount (cfg : DetectionCfg) (w : List DetectorEvent) : Nat :=
  (w.filter (fun e =>
    match e.ext with
    | some ext => cfg.suspicious_extensions.contains ("." ++ ext)
    | none => false)).length

/-- `ThreatDetector::detect_mass_rename` (detector.rs lines 116-127): the
number of distinct extensions that occur more than 3 times across the queued
events. -/
def detectMassRename (w : List DetectorEvent) : Nat :=
  let exts := w.filterMap DetectorEvent.ext
  (exts.dedup.filter (fun x => decide (3 < exts.count x))).length

/-- The entropy measurement feeding check 3 (detector.rs lines 83-91):
`entropyOf` abstracts `path.exists() && calculate_entropy(path)` — `none`
when the file is gone or unreadable, `some e` for a measured Shannon entropy
`e` of the most recent event's file. -/
def lastEntropy (entropyOf : String → Option ℚ) (w : List DetectorEvent) : Option ℚ :=
  match w.getLast? with
  | none => none
  | some last => entropyOf last.path

/-- Check 1 of `check_threat` (detector.rs lines 58-63): queue length above the
rapid-change threshold scores +30. -/
def rapidFactor (cfg : DetectionCfg) (w : List DetectorEvent) : Nat × List String :=
  if cfg.rapid_change_threshold < w.length then
    (30, ["Rapid file changes detected: " ++ toString w.length ++ " files/min"])
  else (0, [])

/-- Check 2 of `check_threat` (detector.rs lines 77-80): any suspicious
extension scores +20. -/
def suspiciousFactor (cfg : DetectionCfg) (w : List DetectorEvent) : Nat × List String :=
  if 0 < suspiciousCount cfg w then
    (20, ["Suspicious extensions: " ++ toString (suspiciousCount cfg w) ++ " files"])
  else (0, [])

/-- Check 3 of `check_threat` (detector.rs lines 82-92): measured entropy of
the most recent event's file above the threshold scores +40. -/
def entropyFactor (cfg : DetectionCfg) (entropyOf : String → Option ℚ)
    (w : List DetectorEvent) : Nat × List String :=
  match lastEntropy entropyOf w with
  | none => (0, [])
  | some e =>
    if cfg.entropy_threshold < e then
      (40, ["High entropy detected: " ++ toString e ++ " bits/byte"])
    else (0, [])

/-- Check 4 of `check_threat` (detector.rs lines 94-99): more than 5
mass-rename patterns scores +10. -/
def renameFactor (w : List DetectorEvent) : Nat × List String :=
  if 5 < detectMassRename w then
    (10, ["Mass file renaming: " ++ toString (detectMassRename w) ++ " patterns"])
  else (0, [])

/-- The score / reason accumulation of `check_threat` (detector.rs lines
55-99): the four factors summed in order, their reason strings pushed in
order. -/
def checkThreatCore (cfg : DetectionCfg) (entropyOf : String → Option ℚ)
    (w : List DetectorEvent) : Nat × List String :=
  ((rapidFactor cfg w).1 + (suspiciousFactor cfg w).1 + (entropyFactor cfg entropyOf w).1
      + (renameFactor w).1,
   (rapidFactor cfg w).2 ++ (suspiciousFactor cfg w).2 ++ (entropyFactor cfg entropyOf w).2
      ++ (renameFactor w).2)

/-- Rust's `Vec::join(sep)` (detector.rs line 107 joins the reasons with
"; "). -/
def joinSep (sep : String) : List String → String
  | [] => ""
  | [s] => s
  | s :: t => s ++ sep ++ joinSep sep t

/-- `ThreatDetector::check_threat` (detector.rs lines 54-114): alert exactly
when the summed score reaches 70, carrying the score, the "; "-joined
reasons, the most recent event's path and the fixed label "Ransomware" (the
`?` on `back()` yields no alert for an empty window). -/
def checkThreat (cfg : DetectionCfg) (entropyOf : String → Option ℚ)
    (w : List DetectorEvent) (now : Nat) : Option ThreatAlert :=
  if 70 ≤ (checkThreatCore cfg entropyOf w).1 then
    match w.getLast? with
    | none => none
    | some last =>
      some { timestamp := now
             score := (checkThreatCore cfg entropyOf w).1
             description := joinSep "; " (checkThreatCore cfg entropyOf w).2
             file_path := last.path
             threat_type := "Ransomware" }
  else none

/-- Whether check 3's condition held (detector.rs line 86): the most recent
event's file was readable and its measured entropy exceeds the threshold. -/
def entropyTriggered (cfg : DetectionCfg) (entropyOf : String → Option ℚ)
    (w : List DetectorEvent) : Bool :=
  match lastEntropy entropyOf w with
  | none => false
  | some e => decide (cfg.entropy_threshold < e)

/-- Crypto instantiation used by concrete witnesses: identity coding (hash is
the content itself — injective — and encryption/compression are identities,
satisfying the inverse contracts). -/
def idOps : CryptoOps :=
  { hash := fun b => b
    encrypt := fun b => b
    decrypt := fun b => some b
    compress := fun b => b
    decompress := fun b => some b }

/-! ### Association-list lemmas -/

theorem alookup_aset_self {α β : Type} [DecidableEq α] (k : α) (v : β) (l : List (α × β)) :
    alookup k (aset k v l) = some v := by
  induction l with
  | nil => simp [alookup, aset]
  | cons hd t ih =>
    rcases hd with ⟨a, b⟩
    by_cases h : a = k <;> simp [alookup, aset, h, ih]

theorem alookup_aset_ne {α β : Type} [DecidableEq α] {k k' : α} (v : β) (l : List (α × β))
    (h : k' ≠ k) : alookup k' (aset k v l) = alookup k' l := by
  have hk : k ≠ k' := fun he => h he.symm
  induction l with
  | nil => simp [alookup, aset, hk]
  | cons hd t ih =>
    rcases hd with ⟨a, b⟩
    by_cases ha : a = k
    · subst ha
      simp [alookup, aset, hk]
    · by_cases ha' : a = k' <;> simp [alookup, aset, ha, ha', h, ih]

/-! ### `putIfAbsent` lemmas -/

theorem alookup_putIfAbsent_preserve (C : CryptoOps) {bl : List (Digest × Bytes)}
    {d : Digest} {p : Bytes} (h : alookup d bl = some p) (hd : Digest) (c : Bytes) :
    alookup d (putIfAbsent C bl hd c) = some p := by
  unfold putIfAbsent
  split
  · exact h
  · next habs =>
    by_cases hdd : hd = d
    · subst hdd
      simp [h, Option.isSome] at habs
    · simpa [alookup, hdd] using h

theorem alookup_putIfAbsent_self_isSome (C : CryptoOps) (bl : List (Digest × Bytes))
    (hd : Digest) (c : Bytes) : (alookup hd (putIfAbsent C bl hd c)).isSome := by
  unfold putIfAbsent
  split
  · assumption
  · simp [alookup]

/-! ### `chunks` lemmas -/

theorem chunksGo_fuel_eq (bs : Nat) (hbs : 0 < bs) :
    ∀ (fuel₁ fuel₂ : Nat) (l : Bytes), l.length ≤ fuel₁ → l.length ≤ fuel₂ →
      chunksGo bs fuel₁ l = chunksGo bs fuel₂ l := by
  intro fuel₁
  induction fuel₁ with
  | zero =>
    intro fuel₂ l h₁ _
    have : l = [] := List.length_eq_zero.mp (Nat.le_zero.mp h₁)
    subst this
    cases fuel₂ <;> rfl
  | succ f ih =>
    intro fuel₂ l h₁ h₂
    match l, fuel₂ with
    | [], f₂ => cases f₂ <;> rfl
    | x :: xs, 0 => simp at h₂
    | x :: xs, f₂ + 1 =>
      show _ :: chunksGo bs f ((x :: xs).drop bs) = _ :: chunksGo bs f₂ ((x :: xs).drop bs)
      have hlen : ((x :: xs).drop bs).length = xs.length + 1 - bs := by
        simp [List.length_drop]
      have hle : ((x :: xs).drop bs).length ≤ f := by
        simp only [List.length_cons] at h₁; omega
      have hle₂ : ((x :: xs).drop bs).length ≤ f₂ := by
        simp only [List.length_cons] at h₂; omega
      rw [ih _ _ hle hle₂]

theorem chunks_nil (bs : Nat) : chunks bs [] = [] := rfl

theorem chunks_cons (bs : Nat) (hbs : 0 < bs) (x : Nat) (xs : Bytes) :
    chunks bs (x :: xs) = (x :: xs).take bs :: chunks bs ((x :: xs).drop bs) := by
  show chunksGo bs (xs.length + 1) (x :: xs) = _
  show _ :: chunksGo bs xs.length ((x :: xs).drop bs)
      = _ :: chunksGo bs ((x :: xs).drop bs).length ((x :: xs).drop bs)
  congr 1
  apply chunksGo_fuel_eq bs hbs
  · simp [List.length_drop]; omega
  · exact Nat.le_refl _

theorem chunks_flatten (bs : Nat) (hbs : 0 < bs) (l : Bytes) :
    (chunks bs l).flatten = l := by
  have H : ∀ (fuel : Nat) (l : Bytes), l.length ≤ fuel → (chunksGo bs fuel l).flatten = l := by
    intro fuel
    induction fuel with
    | zero =>
      intro l h
      have : l = [] := List.length_eq_zero.mp (Nat.le_zero.mp h)
      subst this; rfl
    | succ f ih =>
      intro l h
      match l with
      | [] => rfl
      | x :: xs =>
        show ((x :: xs).take bs :: chunksGo bs f ((x :: xs).drop bs)).flatten = x :: xs
        rw [List.flatten_cons]
        have hle : ((x :: xs).drop bs).length ≤ f := by
          simp [List.length_drop] at *; omega
        rw [ih _ hle, List.take_append_drop]
  exact H l.length l (Nat.le_refl _)

theorem zip_map_self {α β : Type} (l : List α) (f : α → β) :
    l.zip (l.map f) = l.map (fun a => (a, f a)) := by
  induction l with
  | nil => rfl
  | cons x xs ih => simp [ih]

/-! ### Store invariants

Every stored block object is the compressed-then-encrypted image of some byte
string whose digest is its key, and every version recorded in a manifest was
built by `create_backup` from some byte string whose blocks are all present.
These invariants hold for the empty store and are preserved by
`backup_file`. -/

/-- Every block object is `encrypt (compress b)` stored under `hash b`. -/
def BlocksInv (C : CryptoOps) (bl : List (Digest × Bytes)) : Prop :=
  ∀ d p, alookup d bl = some p → ∃ b, C.hash b = d ∧ p = C.encrypt (C.compress b)

/-- A recorded version is `create_backup`'s output on some content `b`, all
of whose block digests are present in the object store. -/
def VersionInv (C : CryptoOps) (bl : List (Digest × Bytes)) (v : BackupVersion) : Prop :=
  ∃ b, v.file_hash = C.hash b ∧ v.block_hashes = (chunks 4096 b).map C.hash ∧
    ∀ d ∈ v.block_hashes, (alookup d bl).isSome

/-- The whole-store invariant. -/
def StoreInv (C : CryptoOps) (st : StoreState) : Prop :=
  BlocksInv C st.blocks ∧
  ∀ p info, alookup p st.manifests = some info → ∀ v ∈ info.versions, VersionInv C st.blocks v

theorem storeInv_empty (C : CryptoOps) : StoreInv C { blocks := [], manifests := [] } := by
  constructor
  · intro d p h
    simp [alookup] at h
  · intro p info h
    simp [alookup] at h

theorem putIfAbsent_blocksInv (C : CryptoOps) {bl : List (Digest × Bytes)}
    (h : BlocksInv C bl) (c : Bytes) : BlocksInv C (putIfAbsent C bl (C.hash c) c) := by
  unfold putIfAbsent
  split
  · exact h
  · intro d p hd
    by_cases hdd : C.hash c = d
    · subst hdd
      simp [alookup] at hd
      exact ⟨c, rfl, hd.symm⟩
    · simp [alookup, hdd] at hd
      exact h d p hd

/-- Storing the chunk/digest pairs produced by `create_backup` preserves the
block invariant, preserves every existing binding, and makes each chunk's
object present with its compressed-encrypted payload (hash collision-freedom
makes the dedup check sound). -/
theorem storeFileBlocks_spec (C : CryptoOps) (hinj : Function.Injective C.hash)
    (L : List Bytes) :
    ∀ (bl : List (Digest × Bytes)), BlocksInv C bl →
      BlocksInv C (storeFileBlocks C bl (L.map (fun c => (c, C.hash c)))) ∧
      (∀ d p, alookup d bl = some p →
        alookup d (storeFileBlocks C bl (L.map (fun c => (c, C.hash c)))) = some p) ∧
      (∀ c ∈ L, alookup (C.hash c) (storeFileBlocks C bl (L.map (fun c => (c, C.hash c))))
        = some (C.encrypt (C.compress c))) := by
  induction L with
  | nil =>
    intro bl hbl
    exact ⟨hbl, fun d p h => h, by simp⟩
  | cons c L' ih =>
    intro bl hbl
    have hstep : storeFileBlocks C bl ((c :: L').map (fun c => (c, C.hash c)))
        = storeFileBlocks C (putIfAbsent C bl (C.hash c) c) (L'.map (fun c => (c, C.hash c))) := rfl
    have hbl1 : BlocksInv C (putIfAbsent C bl (C.hash c) c) := putIfAbsent_blocksInv C hbl c
    obtain ⟨ih1, ih2, ih3⟩ := ih (putIfAbsent C bl (C.hash c) c) hbl1
    have hcLook : alookup (C.hash c) (putIfAbsent C bl (C.hash c) c)
        = some (C.encrypt (C.compress c)) := by
      unfold putIfAbsent
      split
      · next hsome =>
        obtain ⟨p, hp⟩ := Option.isSome_iff_exists.mp hsome
        obtain ⟨b, hb1, hb2⟩ := hbl _ _ hp
        have : b = c := hinj hb1
        subst this
        rw [hp, hb2]
      · simp [alookup]
    refine ⟨hstep ▸ ih1, ?_, ?_⟩
    · intro d p h
      rw [hstep]
      exact ih2 d p (alookup_putIfAbsent_preserve C h _ _)
    · intro c' hc'
      rcases List.mem_cons.mp hc' with hc' | hc'
      · subst hc'
        rw [hstep]
        exact ih2 _ _ hcLook
      · rw [hstep]
        exact ih3 c' hc'

theorem versionInv_mono (C : CryptoOps) {bl bl' : List (Digest × Bytes)}
    (hmono : ∀ d p, alookup d bl = some p → alookup d bl' = some p)
    {v : BackupVersion} (h : VersionInv C bl v) : VersionInv C bl' v := by
  obtain ⟨b, h1, h2, h3⟩ := h
  refine ⟨b, h1, h2, fun d hd => ?_⟩
  obtain ⟨p, hp⟩ := Option.isSome_iff_exists.mp (h3 d hd)
  exact Option.isSome_iff_exists.mpr ⟨p, hmono d p hp⟩

/-! ### `backup_file` case analysis and invariant preservation -/

theorem backupCommit_blocks (C : CryptoOps) (st : StoreState) (path : String)
    (fi : FsFileInfo) (now : Nat) (info : BackupInfo) :
    (backupCommit C st path fi (createBackup C 4096 fi now) info).blocks
      = storeFileBlocks C st.blocks ((chunks 4096 fi.data).map (fun c => (c, C.hash c))) := by
  simp only [backupCommit, createBackup]
  rw [zip_map_self]

/-- The version list persisted by the commit path: append, then trim the
oldest 10 when the count exceeds 100. -/
def trimAppend (l : List BackupVersion) (nv : BackupVersion) : List BackupVersion :=
  if (l ++ [nv]).length > 100 then (l ++ [nv]).drop 10 else (l ++ [nv])

theorem backupCommit_manifests (C : CryptoOps) (st : StoreState) (path : String)
    (fi : FsFileInfo) (bv : BackupVersion) (info : BackupInfo) :
    (backupCommit C st path fi bv info).manifests
      = aset path
          { info with versions :=
              trimAppend info.versions { bv with version := info.versions.length + 1 } }
          st.manifests := rfl

theorem getLast?_trimAppend (l : List BackupVersion) (nv : BackupVersion) :
    (trimAppend l nv).getLast? = some nv := by
  unfold trimAppend
  split
  · next h =>
    have h10 : 10 ≤ l.length := by simp at h; omega
    rw [List.drop_append_of_le_length h10, List.getLast?_concat]
  · exact List.getLast?_concat l

theorem mem_trimAppend {l : List BackupVersion} {nv v : BackupVersion}
    (h : v ∈ trimAppend l nv) : v ∈ l ++ [nv] := by
  unfold trimAppend at h
  split at h
  · exact List.mem_of_mem_drop h
  · exact h

/-- `backup_file` on an existing file either skips (unchanged content: the
last recorded version has the same whole-file digest) or commits. -/
theorem backupFile_some_cases (C : CryptoOps) (st : StoreState) (path : String)
    (fi : FsFileInfo) (now : Nat) (st' : StoreState)
    (h : backupFile C st path (some fi) now = .ok st') :
    (st' = st ∧ ∃ info last, alookup path st.manifests = some info ∧
      info.versions.getLast? = some last ∧ last.file_hash = C.hash fi.data) ∨
    st' = backupCommit C st path fi (createBackup C 4096 fi now)
      ((alookup path st.manifests).getD { file_path := path, versions := [] }) := by
  simp only [backupFile] at h
  split at h
  · next last hl =>
    split at h
    · next heq =>
      left
      have hst : st' = st := ((Except.ok.injEq _ _).mp h).symm
      refine ⟨hst, ?_⟩
      cases hm : alookup path st.manifests with
      | none =>
        rw [hm] at hl
        simp at hl
      | some info =>
        rw [hm] at hl
        exact ⟨info, last, rfl, hl, heq⟩
    · right
      exact (Except.ok.injEq _ _).mp h.symm
  · right
    exact (Except.ok.injEq _ _).mp h.symm

/-- The skip branch of `backup_file` (storage.rs lines 58-64): unchanged
whole-file digest means no state change. -/
theorem backupFile_skip (C : CryptoOps) (st : StoreState) (path : String)
    (fi : FsFileInfo) (now : Nat) (last : BackupVersion)
    (hlast : ((alookup path st.manifests).getD
      { file_path := path, versions := [] }).versions.getLast? = some last)
    (heq : last.file_hash = C.hash fi.data) :
    backupFile C st path (some fi) now = .ok st := by
  simp only [backupFile]
  split
  · next last' hl' =>
    rw [hlast] at hl'
    injection hl' with hl'
    subst hl'
    rw [if_pos (show last.file_hash = (createBackup C 4096 fi now).file_hash from heq)]
  · next hl' =>
    rw [hlast] at hl'
    exact absurd hl' (by simp)

/-- The commit branch of `backup_file`: when the last version is absent or has
a different whole-file digest, the call stores blocks and appends a version. -/
theorem backupFile_commit (C : CryptoOps) (st : StoreState) (path : String)
    (fi : FsFileInfo) (now : Nat)
    (hne : ∀ last, ((alookup path st.manifests).getD
        { file_path := path, versions := [] }).versions.getLast? = some last →
      last.file_hash ≠ C.hash fi.data) :
    backupFile C st path (some fi) now = .ok (backupCommit C st path fi
      (createBackup C 4096 fi now)
      ((alookup path st.manifests).getD { file_path := path, versions := [] })) := by
  simp only [backupFile]
  split
  · next last hl =>
    rw [if_neg (show ¬last.file_hash = (createBackup C 4096 fi now).file_hash from hne last hl)]
  · rfl

theorem backupCommit_storeInv (C : CryptoOps) (hinj : Function.Injective C.hash)
    (st : StoreState) (path : String) (fi : FsFileInfo) (now : Nat) (info : BackupInfo)
    (hInv : StoreInv C st) (hvers : ∀ v ∈ info.versions, VersionInv C st.blocks v) :
    StoreInv C (backupCommit C st path fi (createBackup C 4096 fi now) info) := by
  obtain ⟨sInv, sPres, sPresent⟩ :=
    storeFileBlocks_spec C hinj (chunks 4096 fi.data) st.blocks hInv.1
  have hblocks := backupCommit_blocks C st path fi now info
  constructor
  · rw [hblocks]
    exact sInv
  · intro q info' hq v hv
    rw [backupCommit_manifests] at hq
    rw [hblocks]
    by_cases hqp : q = path
    · subst hqp
      rw [alookup_aset_self] at hq
      injection hq with hq
      subst hq
      have hv' : v ∈ info.versions ++
          [{ createBackup C 4096 fi now with version := info.versions.length + 1 }] :=
        mem_trimAppend hv
      rcases List.mem_append.mp hv' with hv' | hv'
      · exact versionInv_mono C sPres (hvers v hv')
      · have hveq : v = { createBackup C 4096 fi now with
            version := info.versions.length + 1 } := List.mem_singleton.mp hv'
        subst hveq
        refine ⟨fi.data, rfl, rfl, ?_⟩
        intro d hd
        simp only [createBackup, List.mem_map] at hd
        obtain ⟨c, hc, hdc⟩ := hd
        subst hdc
        exact Option.isSome_iff_exists.mpr ⟨_, sPresent c hc⟩
    · rw [alookup_aset_ne _ _ hqp] at hq
      exact versionInv_mono C sPres (hInv.2 q info' hq v hv)

/-- `backup_file` preserves the store invariant. -/
theorem backup_storeInv (C : CryptoOps) (hinj : Function.Injective C.hash)
    (st : StoreState) (path : String) (file : Option FsFileInfo) (now : Nat)
    (st' : StoreState) (hInv : StoreInv C st)
    (h : backupFile C st path file now = .ok st') : StoreInv C st' := by
  cases file with
  | none =>
    have : st = st' := (Except.ok.injEq _ _).mp h
    exact this ▸ hInv
  | some fi =>
    rcases backupFile_some_cases C st path fi now st' h with ⟨hst, _⟩ | hst
    · exact hst ▸ hInv
    · subst hst
      apply backupCommit_storeInv C hinj st path fi now _ hInv
      cases hm : alookup path st.manifests with
      | none => simp
      | some info =>
        intro v hv
        simp only [hm, Option.getD_some] at hv
        exact hInv.2 path info hm v hv

/-- After a successful `backup_file` on an existing file, the path's manifest
exists and its last version carries the file's whole-file digest. -/
theorem backup_last (C : CryptoOps) (st : StoreState) (path : String)
    (fi : FsFileInfo) (now : Nat) (st' : StoreState)
    (h : backupFile C st path (some fi) now = .ok st') :
    ∃ info', alookup path st'.manifests = some info' ∧
      ∃ last', info'.versions.getLast? = some last' ∧ last'.file_hash = C.hash fi.data := by
  rcases backupFile_some_cases C st path fi now st' h with ⟨hst, info, last, hm, hl, hh⟩ | hst
  · subst hst
    exact ⟨info, hm, last, hl, hh⟩
  · subst hst
    rw [backupCommit_manifests]
    refine ⟨_, alookup_aset_self _ _ _, ?_⟩
    exact ⟨_, getLast?_trimAppend _ _, rfl⟩

/-! ### Restore lemmas -/

theorem restoreBlocks_ok (C : CryptoOps)
    (hdec : ∀ b, C.decrypt (C.encrypt b) = some b)
    (hdz : ∀ b, C.decompress (C.compress b) = some b)
    (bl : List (Digest × Bytes)) (L : List Bytes)
    (hlook : ∀ c ∈ L, alookup (C.hash c) bl = some (C.encrypt (C.compress c))) :
    restoreBlocks C bl (L.map C.hash) = .ok L.flatten := by
  induction L with
  | nil => rfl
  | cons c L' ih =>
    have h1 := hlook c (List.mem_cons_self c L')
    have ih' := ih (fun c' hc' => hlook c' (List.mem_cons_of_mem c hc'))
    show restoreBlocks C bl (C.hash c :: L'.map C.hash) = _
    unfold restoreBlocks
    simp only [h1, hdec, hdz, ih', List.flatten_cons]

/-- Restoring the latest version reproduces any content whose digest matches
the last recorded version, in a store satisfying the invariant. -/
theorem restore_latest (C : CryptoOps) (hinj : Function.Injective C.hash)
    (hdec : ∀ b, C.decrypt (C.encrypt b) = some b)
    (hdz : ∀ b, C.decompress (C.compress b) = some b)
    (st : StoreState) (p : String) (info : BackupInfo) (last : BackupVersion) (data : Bytes)
    (hInv : StoreInv C st) (hm : alookup p st.manifests = some info)
    (hlast : info.versions.getLast? = some last) (hfh : last.file_hash = C.hash data) :
    restoreFile C st p none = .ok data := by
  have hne : info.versions ≠ [] := by
    intro he
    rw [he] at hlast
    simp at hlast
  have hmem : last ∈ info.versions := List.mem_of_mem_getLast? (by rw [hlast]; exact rfl)
  obtain ⟨b, hb1, hb2, hb3⟩ := hInv.2 p info hm last hmem
  have hbdata : b = data := hinj (by rw [← hb1, hfh])
  subst hbdata
  have hlook : ∀ c ∈ chunks 4096 b, alookup (C.hash c) st.blocks
      = some (C.encrypt (C.compress c)) := by
    intro c hc
    have hdmem : C.hash c ∈ last.block_hashes := by
      rw [hb2]
      exact List.mem_map_of_mem C.hash hc
    obtain ⟨p', hp'⟩ := Option.isSome_iff_exists.mp (hb3 _ hdmem)
    obtain ⟨b', hb'1, hb'2⟩ := hInv.1 _ _ hp'
    have : b' = c := hinj hb'1
    subst this
    rw [hp', hb'2]
  simp only [restoreFile]
  rw [hm]
  simp only [Option.getD_some]
  rw [if_neg hne, hlast]
  show restoreBlocks C st.blocks last.block_hashes = .ok b
  rw [hb2, restoreBlocks_ok C hdec hdz st.blocks _ hlook,
    chunks_flatten 4096 (by omega) b]

/-! ### Claim theorems -/

/-- C1: backing up a readable file and then restoring that backup's (latest)
version reproduces the file's exact bytes — the version's block digests,
each fetched, decrypted, decompressed and concatenated in order, equal the
file byte-for-byte — for every file, including sizes that are not a multiple
of the 4096-byte block size (the trailing partial chunk is a shorter final
block, not padded), under the stated crypto-boundary contracts (decrypt
inverts encrypt, decompress inverts compress, hash collision-free) and the
store invariant. -/
theorem claim_C1_round_trip (C : CryptoOps)
    (hinj : Function.Injective C.hash)
    (hdec : ∀ b, C.decrypt (C.encrypt b) = some b)
    (hdz : ∀ b, C.decompress (C.compress b) = some b)
    (st : StoreState) (hInv : StoreInv C st)
    (path : String) (fi : FsFileInfo) (now : Nat) (st' : StoreState)
    (hb : backupFile C st path (some fi) now = .ok st') :
    restoreFile C st' path none = .ok fi.data := by
  have hInv' := backup_storeInv C hinj st path (some fi) now st' hInv hb
  obtain ⟨info', hm', last', hl', hh'⟩ := backup_last C st path fi now st' hb
  exact restore_latest C hinj hdec hdz st' path info' last' fi.data hInv' hm' hl' hh'

/-- Witness for C1: a 3-byte file (not a multiple of the 4096-byte block
size) backed up into an empty store restores byte-for-byte. -/
theorem claim_C1_round_trip_witness :
    restoreFile idOps
      { blocks := [([1, 2, 3], [1, 2, 3])]
        manifests := [("f", { file_path := "f", versions :=
          [{ version := 1, timestamp := 0, file_hash := [1, 2, 3],
             block_hashes := [[1, 2, 3]],
             metadata := { size := 3, permissions := 0, modified := 0 } }] })] }
      "f" none = .ok [1, 2, 3] :=
  claim_C1_round_trip idOps (fun _ _ h => h) (fun _ => rfl) (fun _ => rfl)
    { blocks := [], manifests := [] } (storeInv_empty idOps)
    "f" { data := [1, 2, 3], perms := 0, mtime := 0 } 0 _ rfl

/-- C5: backup is idempotent on unchanged content — when the new whole-file
digest equals the last recorded version's digest, `backup_file` is a no-op;
consequently calling backup twice on the same content yields exactly the
state of the first call (one new version, not two). -/
theorem claim_C5_idempotent_backup :
    (∀ (C : CryptoOps) (st : StoreState) (path : String) (fi : FsFileInfo) (now : Nat)
        (last : BackupVersion),
      ((alookup path st.manifests).getD
        { file_path := path, versions := [] }).versions.getLast? = some last →
      last.file_hash = C.hash fi.data →
      backupFile C st path (some fi) now = .ok st) ∧
    (∀ (C : CryptoOps) (st : StoreState) (path : String) (fi : FsFileInfo) (now now' : Nat)
        (st' : StoreState),
      backupFile C st path (some fi) now = .ok st' →
      backupFile C st' path (some fi) now' = .ok st') := by
  constructor
  · intro C st path fi now last hlast heq
    exact backupFile_skip C st path fi now last hlast heq
  · intro C st path fi now now' st' h
    obtain ⟨info', hm', last', hl', hh'⟩ := backup_last C st path fi now st' h
    apply backupFile_skip C st' path fi now' last' _ hh'
    rw [hm']
    simpa using hl'

/-- Witness for C5: the second backup of the unchanged 3-byte file returns
the state of the first backup unchanged. -/
theorem claim_C5_idempotent_backup_witness :
    backupFile idOps
      { blocks := [([1, 2, 3], [1, 2, 3])]
        manifests := [("f", { file_path := "f", versions :=
          [{ version := 1, timestamp := 0, file_hash := [1, 2, 3],
             block_hashes := [[1, 2, 3]],
             metadata := { size := 3, permissions := 0, modified := 0 } }] })] }
      "f" (some { data := [1, 2, 3], perms := 0, mtime := 0 }) 7
      = .ok
      { blocks := [([1, 2, 3], [1, 2, 3])]
        manifests := [("f", { file_path := "f", versions :=
          [{ version := 1, timestamp := 0, file_hash := [1, 2, 3],
             block_hashes := [[1, 2, 3]],
             metadata := { size := 3, permissions := 0, modified := 0 } }] })] } :=
  claim_C5_idempotent_backup.2 idOps { blocks := [], manifests := [] } "f"
    { data := [1, 2, 3], perms := 0, mtime := 0 } 0 7 _ rfl

/-- C8: content addressing — equal byte sequences have equal digests and map
to the same storage path, storing both produces exactly one stored object,
and writing a block whose digest is already present is a no-op. -/
theorem claim_C8_content_addressing (C : CryptoOps) (bl : List (Digest × Bytes))
    (b1 b2 : Bytes) (h : b1 = b2) :
    C.hash b1 = C.hash b2 ∧
    getBlockPath (C.hash b1) = getBlockPath (C.hash b2) ∧
    putIfAbsent C (putIfAbsent C bl (C.hash b1) b1) (C.hash b2) b2
      = putIfAbsent C bl (C.hash b1) b1 ∧
    (putIfAbsent C (putIfAbsent C [] (C.hash b1) b1) (C.hash b2) b2).length = 1 ∧
    ∀ v, alookup (C.hash b1) bl = some v → putIfAbsent C bl (C.hash b1) b1 = bl := by
  subst h
  refine ⟨rfl, rfl, ?_, ?_, ?_⟩
  · show (if (alookup (C.hash b1) (putIfAbsent C bl (C.hash b1) b1)).isSome = true
        then _ else _) = _
    rw [if_pos (alookup_putIfAbsent_self_isSome C bl _ b1)]
  · simp [putIfAbsent, alookup]
  · intro v hv
    show (if (alookup (C.hash b1) bl).isSome = true then _ else _) = _
    rw [if_pos (by rw [hv]; rfl)]

/-- Witness for C8: storing the byte block `[5]` twice into an empty store
leaves the store of the first write unchanged. -/
theorem claim_C8_content_addressing_witness :
    putIfAbsent idOps (putIfAbsent idOps [] (idOps.hash [5]) [5]) (idOps.hash [5]) [5]
      = putIfAbsent idOps [] (idOps.hash [5]) [5] :=
  (claim_C8_content_addressing idOps [] [5] [5] rfl).2.2.1

/-- C10: for a path that does not exist on the filesystem (`file = none`
models `!file_path.exists()`), `backup_file` returns success and leaves all
persisted state unchanged — no version appended, no block written. -/
theorem claim_C10_missing_file_noop (C : CryptoOps) (st : StoreState) (path : String)
    (now : Nat) : backupFile C st path none now = .ok st := rfl

/-- The write-to-temporary-then-rename discipline the spec asserts for the
final write of a restore. -/
def atomicTempRename (tr : List FsOp) (target : String) : Prop :=
  ∃ tmp d, tmp ≠ target ∧ tr = [FsOp.writeFile tmp d, FsOp.rename tmp target]

/-- Counterexample to C2 as stated: a successful restore's filesystem trace
is a single direct `fs::write` to the target path — it is not a write to a
temporary location followed by a rename into place. -/
theorem claim_C2_counterexample :
    restoreFileOps idOps
      { blocks := [([1, 2, 3], [1, 2, 3])]
        manifests := [("t", { file_path := "t", versions :=
          [{ version := 1, timestamp := 0, file_hash := [1, 2, 3],
             block_hashes := [[1, 2, 3]],
             metadata := { size := 3, permissions := 0, modified := 0 } }] })] }
      "t" none = .ok [FsOp.writeFile "t" [1, 2, 3]] ∧
    ¬ atomicTempRename [FsOp.writeFile "t" [1, 2, 3]] "t" := by
  constructor
  · rfl
  · rintro ⟨tmp, d, _, h⟩
    simp at h

/-- C2 amended: `restore_file` assembles the complete file in memory and
performs no filesystem write until every block has been fetched, decrypted
and decompressed, so every restore that fails at any step (missing manifest,
absent version, missing block, decrypt or decompress failure) leaves the
target file's prior contents unchanged and never writes a partial file; the
final write, however, is a single direct write to the target path, not a
write-to-temporary-then-rename. -/
theorem claim_C2_all_or_nothing (C : CryptoOps) (st : StoreState) (p : String)
    (v : Option Nat) (fs : List (String × Bytes)) :
    (∀ e, restoreFile C st p v = .error e → runRestore C st p v fs = fs) ∧
    (∀ d, restoreFile C st p v = .ok d →
      restoreFileOps C st p v = .ok [FsOp.writeFile p d] ∧
      runRestore C st p v fs = aset p d fs) := by
  constructor
  · intro e he
    simp [runRestore, restoreFileOps, he, Except.map]
  · intro d hd
    refine ⟨by simp [restoreFileOps, hd, Except.map], ?_⟩
    simp [runRestore, restoreFileOps, hd, Except.map, applyFsOp]

/-- Witness for the amended C2: restoring from an empty store (missing
manifest) fails and leaves the target file's contents untouched. -/
theorem claim_C2_all_or_nothing_witness :
    runRestore idOps { blocks := [], manifests := [] } "t" none [("t", [9])] = [("t", [9])] :=
  (claim_C2_all_or_nothing idOps { blocks := [], manifests := [] } "t" none
    [("t", [9])]).1 "Backup info not found" rfl

/-- A reachable post-retention-trim history: 91 versions numbered 11..101,
exactly the shape left by the first trim (101 versions appended, oldest 10
drained). -/
def versTrim : List BackupVersion :=
  (List.range 91).map (fun i =>
    { version := i + 11, timestamp := 0, file_hash := [i + 11],
      block_hashes := [[i + 11]],
      metadata := { size := 1, permissions := 0, modified := 0 } })

/-- A store holding the post-trim history of `versTrim` for path "f". -/
def stTrim : StoreState := { blocks := [], manifests := [("f", { file_path := "f", versions := versTrim })] }

/-- Counterexample to C3 as stated: on the post-trim history whose last
version number is 101, `backup_file` assigns the next version number
`versions.len() + 1 = 92`, not `last_version_number + 1 = 102`. -/
theorem claim_C3_counterexample :
    ((alookup "f" stTrim.manifests).bind
      (fun i => i.versions.getLast?.map (fun v => v.version))) = some 101 ∧
    ((backupFile idOps stTrim "f" (some { data := [200], perms := 0, mtime := 0 }) 0).toOption.bind
      (fun st' => (alookup "f" st'.manifests).bind
        (fun i => i.versions.getLast?.map (fun v => v.version)))) = some 92 ∧
    (92 : Nat) ≠ 101 + 1 := by
  refine ⟨rfl, rfl, by decide⟩

theorem map_version_trimAppend_no_trim (l : List BackupVersion) (nv : BackupVersion)
    (hlt : l.length < 100) (hnum : nv.version = l.length + 1)
    (hmono : l.map (fun v => v.version) = List.range' 1 l.length) :
    (trimAppend l nv).map (fun v => v.version) = List.range' 1 (l.length + 1) := by
  unfold trimAppend
  rw [if_neg (by simp only [List.length_append, List.length_cons, List.length_nil]; omega)]
  rw [List.map_append, hmono]
  simp only [List.map_cons, List.map_nil, hnum]
  rw [List.range'_concat 1 l.length]
  simp [Nat.add_comm]

/-- C3 amended: when `backup_file` appends, it assigns version number
`versions.len() + 1` (the current count plus one), which coincides with
`last_version_number + 1` as long as the full history is retained; version
numbers are therefore exactly `1..n`, strictly increasing with no gaps, as
long as no retention trim has occurred. -/
theorem claim_C3_version_numbering (C : CryptoOps) (st : StoreState) (path : String)
    (fi : FsFileInfo) (now : Nat) (info : BackupInfo)
    (hinfo : (alookup path st.manifests).getD { file_path := path, versions := [] } = info)
    (hne : ∀ last, info.versions.getLast? = some last → last.file_hash ≠ C.hash fi.data) :
    ∃ st', backupFile C st path (some fi) now = .ok st' ∧
    ∃ info', alookup path st'.manifests = some info' ∧
      info'.versions.getLast? =
        some { createBackup C 4096 fi now with version := info.versions.length + 1 } ∧
      (info.versions.length < 100 →
        info.versions.map (fun v => v.version) = List.range' 1 info.versions.length →
        info'.versions.map (fun v => v.version) = List.range' 1 (info.versions.length + 1)) := by
  subst hinfo
  refine ⟨_, backupFile_commit C st path fi now hne, ?_⟩
  rw [backupCommit_manifests]
  refine ⟨_, alookup_aset_self _ _ _, getLast?_trimAppend _ _, ?_⟩
  intro hlt hmono
  exact map_version_trimAppend_no_trim _ _ hlt rfl hmono

/-- Witness for the amended C3: appending to a one-version full history
assigns version 2 and yields numbering `[1, 2]`. -/
theorem claim_C3_version_numbering_witness :
    ∃ st', backupFile idOps
      { blocks := [], manifests := [("f", { file_path := "f", versions :=
        [{ version := 1, timestamp := 0, file_hash := [1],
           block_hashes := [[1]],
           metadata := { size := 1, permissions := 0, modified := 0 } }] })] }
      "f" (some { data := [9], perms := 0, mtime := 0 }) 3 = .ok st' ∧
    ∃ info', alookup "f" st'.manifests = some info' ∧
      info'.versions.getLast? =
        some { createBackup idOps 4096 { data := [9], perms := 0, mtime := 0 } 3 with
          version := 2 } ∧
      (1 < 100 →
        [{ version := 1, timestamp := 0, file_hash := [1],
           block_hashes := [[1]],
           metadata := { size := 1, permissions := 0, modified := 0 } }].map
            (fun v => BackupVersion.version v) = List.range' 1 1 →
        info'.versions.map (fun v => BackupVersion.version v) = List.range' 1 2) :=
  claim_C3_version_numbering idOps
    { blocks := [], manifests := [("f", { file_path := "f", versions :=
      [{ version := 1, timestamp := 0, file_hash := [1],
         block_hashes := [[1]],
         metadata := { size := 1, permissions := 0, modified := 0 } }] })] }
    "f" { data := [9], perms := 0, mtime := 0 } 3 _ rfl
    (by
      intro last hl
      simp [alookup] at hl
      subst hl
      decide)

/-- C6: retention invariant — starting from a history within the cap, a
`backup_file` call that appends trims exactly the 10 oldest versions from the
front whenever the count exceeds 100, so the persisted count stays within
`[90, 100]` after a trim and never exceeds 100, and the remaining versions
are precisely the most recent ones in their original order (a suffix of the
appended sequence). -/
theorem claim_C6_retention (C : CryptoOps) (st : StoreState) (path : String)
    (fi : FsFileInfo) (now : Nat) (info : BackupInfo)
    (hinfo : (alookup path st.manifests).getD { file_path := path, versions := [] } = info)
    (hne : ∀ last, info.versions.getLast? = some last → last.file_hash ≠ C.hash fi.data)
    (hlen : info.versions.length ≤ 100) :
    ∃ st', backupFile C st path (some fi) now = .ok st' ∧
    ∃ info', alookup path st'.manifests = some info' ∧
      info'.versions = trimAppend info.versions
        { createBackup C 4096 fi now with version := info.versions.length + 1 } ∧
      info'.versions.length ≤ 100 ∧
      ((info.versions ++ [{ createBackup C 4096 fi now with
          version := info.versions.length + 1 }]).length > 100 →
        info'.versions = (info.versions ++ [{ createBackup C 4096 fi now with
          version := info.versions.length + 1 }]).drop 10 ∧
        90 ≤ info'.versions.length) ∧
      info'.versions <:+ (info.versions ++ [{ createBackup C 4096 fi now with
        version := info.versions.length + 1 }]) := by
  subst hinfo
  refine ⟨_, backupFile_commit C st path fi now hne, ?_⟩
  rw [backupCommit_manifests]
  refine ⟨_, alookup_aset_self _ _ _, rfl, ?_, ?_, ?_⟩
  · unfold trimAppend
    split
    · next hgt =>
      simp only [List.length_drop, List.length_append, List.length_cons, List.length_nil]
      simp only [List.length_append, List.length_cons, List.length_nil] at hgt
      omega
    · next hgt =>
      simp only [List.length_append, List.length_cons, List.length_nil]
      simp only [List.length_append, List.length_cons, List.length_nil, gt_iff_lt,
        not_lt] at hgt
      omega
  · intro hgt
    unfold trimAppend
    rw [if_pos hgt]
    refine ⟨rfl, ?_⟩
    simp only [List.length_drop, List.length_append, List.length_cons, List.length_nil]
    simp only [gt_iff_lt, List.length_append, List.length_cons, List.length_nil] at hgt
    omega
  · unfold trimAppend
    split
    · exact List.drop_suffix _ _
    · exact List.suffix_refl _

/-- The old content of the spec's incremental-diff scenario,
`"Hello World!!!"` as bytes. -/
def oldBytesC4 : Bytes := "Hello World!!!".data.map Char.toNat

/-- The new content of the spec's incremental-diff scenario,
`"Hello Rust!!!!"` as bytes. -/
def newBytesC4 : Bytes := "Hello Rust!!!!".data.map Char.toNat

/-- Counterexample to C4 as stated: in the spec's scenario (old
`"Hello World!!!"`, new `"Hello Rust!!!!"`, block size 10) index 0 is also
reported as changed — the first chunks `"Hello Worl"` and `"Hello Rust"`
already differ — so the result is `[0, 1]`, not "index 1 changed, index 0
unchanged". -/
theorem claim_C4_counterexample :
    calculate_incremental_changes idOps 10 newBytesC4
      ((chunks 10 oldBytesC4).map idOps.hash) = [0, 1] ∧
    0 ∈ calculate_incremental_changes idOps 10 newBytesC4
      ((chunks 10 oldBytesC4).map idOps.hash) := by
  exact ⟨by decide, by decide⟩

theorem mem_incremental_iff (C : CryptoOps) (bs : Nat) (current : Bytes)
    (previous : List Digest) (i : Nat) :
    i ∈ calculate_incremental_changes C bs current previous ↔
      i < (chunks bs current).length ∧
        (previous.length ≤ i ∨
          ((chunks bs current).map C.hash).getD i [] ≠ previous.getD i []) := by
  unfold calculate_incremental_changes
  rw [List.mem_filterMap]
  constructor
  · rintro ⟨⟨idx, h⟩, hmem, hf⟩
    rw [List.mk_mem_enum_iff_getElem?] at hmem
    have hlt : idx < ((chunks bs current).map C.hash).length :=
      List.getElem?_eq_some.mp hmem |>.1
    have hx : ((chunks bs current).map C.hash).getD idx [] = h := by
      rw [List.getD_eq_getElem?_getD, hmem]
      rfl
    by_cases c1 : previous.length ≤ idx
    · rw [if_pos c1] at hf
      injection hf with hf
      subst hf
      exact ⟨by simpa using hlt, Or.inl c1⟩
    · rw [if_neg c1] at hf
      by_cases c2 : h ≠ previous.getD idx []
      · rw [if_pos c2] at hf
        injection hf with hf
        subst hf
        exact ⟨by simpa using hlt, Or.inr (hx ▸ c2)⟩
      · rw [if_neg c2] at hf
        cases hf
  · rintro ⟨hlt, hcond⟩
    have hlt' : i < ((chunks bs current).map C.hash).length := by simpa using hlt
    refine ⟨(i, ((chunks bs current).map C.hash).getD i []), ?_, ?_⟩
    · rw [List.mk_mem_enum_iff_getElem?, List.getD_eq_getElem?_getD,
        List.getElem?_eq_getElem hlt']
      rfl
    · show (if previous.length ≤ i then some i
        else if ((chunks bs current).map C.hash).getD i [] ≠ previous.getD i []
        then some i else none) = some i
      by_cases c1 : previous.length ≤ i
      · rw [if_pos c1]
      · rw [if_neg c1]
        rcases hcond with hc | hc
        · exact absurd hc c1
        · rw [if_pos hc]

theorem filterMap_pair_changed (x0 x1 y0 y1 : Digest) (h0 : x0 ≠ y0) (h1 : x1 ≠ y1) :
    (([x0, x1] : List Digest).enum.filterMap (fun p =>
      if ([y0, y1] : List Digest).length ≤ p.1 then some p.1
      else if p.2 ≠ ([y0, y1] : List Digest).getD p.1 [] then some p.1 else none)) = [0, 1] := by
  show (List.filterMap _ [(0, x0), (1, x1)]) = [0, 1]
  simp [List.filterMap, List.getD, h0, h1]

/-- C4 amended: `calculate_incremental_changes` re-chunks the current bytes
at the same block size and compares digests positionally, reporting an index
as changed iff it has no corresponding previous entry or the digest differs;
in the spec's scenario (old `"Hello World!!!"`, new `"Hello Rust!!!!"`, block
size 10) it reports both indices 0 and 1 as changed — the first chunks
`"Hello Worl"` and `"Hello Rust"` already differ — for every collision-free
hash. -/
theorem claim_C4_incremental_diff (C : CryptoOps) (hinj : Function.Injective C.hash) :
    (∀ (bs : Nat) (current : Bytes) (previous : List Digest) (i : Nat),
      i ∈ calculate_incremental_changes C bs current previous ↔
        i < (chunks bs current).length ∧
          (previous.length ≤ i ∨
            ((chunks bs current).map C.hash).getD i [] ≠ previous.getD i [])) ∧
    calculate_incremental_changes C 10 newBytesC4
      ((chunks 10 oldBytesC4).map C.hash) = [0, 1] := by
  constructor
  · exact mem_incremental_iff C
  · have h0 : C.hash ("Hello Rust".data.map Char.toNat)
        ≠ C.hash ("Hello Worl".data.map Char.toNat) :=
      fun he => absurd (hinj he) (by decide)
    have h1 : C.hash ("!!!!".data.map Char.toNat)
        ≠ C.hash ("d!!!".data.map Char.toNat) :=
      fun he => absurd (hinj he) (by decide)
    exact filterMap_pair_changed
      (C.hash ("Hello Rust".data.map Char.toNat)) (C.hash ("!!!!".data.map Char.toNat))
      (C.hash ("Hello Worl".data.map Char.toNat)) (C.hash ("d!!!".data.map Char.toNat))
      h0 h1

/-- Witness for the amended C4: with the identity digest the scenario
computes to `[0, 1]`. -/
theorem claim_C4_incremental_diff_witness :
    calculate_incremental_changes idOps 10 newBytesC4
      ((chunks 10 oldBytesC4).map idOps.hash) = [0, 1] ∧
    (1 ∈ calculate_incremental_changes idOps 10 newBytesC4
        ((chunks 10 oldBytesC4).map idOps.hash) ↔
      1 < (chunks 10 newBytesC4).length ∧
        (((chunks 10 oldBytesC4).map idOps.hash).length ≤ 1 ∨
          ((chunks 10 newBytesC4).map idOps.hash).getD 1 []
            ≠ ((chunks 10 oldBytesC4).map idOps.hash).getD 1 [])) :=
  ⟨(claim_C4_incremental_diff idOps (fun _ _ h => h)).2,
   (claim_C4_incremental_diff idOps (fun _ _ h => h)).1 10 newBytesC4
     ((chunks 10 oldBytesC4).map idOps.hash) 1⟩

/-- The versions `1..100` of a history sitting exactly at the retention cap. -/
def versWit100 : List BackupVersion :=
  (List.range 100).map (fun i =>
    { version := i + 1, timestamp := 0, file_hash := [i],
      block_hashes := [],
      metadata := { size := 0, permissions := 0, modified := 0 } })

/-- A store holding the at-cap history of `versWit100` for path "f". -/
def stWit100 : StoreState :=
  { blocks := [], manifests := [("f", { file_path := "f", versions := versWit100 })] }

/-- Witness for C6: appending the 101st version to a 100-version history
trims the oldest 10, leaving 91 versions that are a suffix of the appended
sequence. -/
theorem claim_C6_retention_witness :
    ∃ st', backupFile idOps stWit100 "f"
        (some { data := [200], perms := 0, mtime := 0 }) 0 = .ok st' ∧
    ∃ info', alookup "f" st'.manifests = some info' ∧
      info'.versions = trimAppend versWit100
        { createBackup idOps 4096 { data := [200], perms := 0, mtime := 0 } 0 with
          version := versWit100.length + 1 } ∧
      info'.versions.length ≤ 100 ∧
      ((versWit100 ++ [{ createBackup idOps 4096 { data := [200], perms := 0, mtime := 0 } 0 with
          version := versWit100.length + 1 }]).length > 100 →
        info'.versions = (versWit100 ++ [{ createBackup idOps 4096
            { data := [200], perms := 0, mtime := 0 } 0 with
          version := versWit100.length + 1 }]).drop 10 ∧
        90 ≤ info'.versions.length) ∧
      info'.versions <:+ (versWit100 ++ [{ createBackup idOps 4096
          { data := [200], perms := 0, mtime := 0 } 0 with
        version := versWit100.length + 1 }]) :=
  claim_C6_retention idOps stWit100 "f" { data := [200], perms := 0, mtime := 0 } 0
    { file_path := "f", versions := versWit100 } rfl
    (by
      intro last hl
      simp [versWit100, alookup, stWit100] at hl
      obtain ⟨a, ha, hlast⟩ := hl
      subst hlast
      have : a = 99 := by
        have : (List.range 100).getLast? = some 99 := rfl
        rw [this] at ha
        exact (Option.some.injEq _ _).mp ha.symm
      subst this
      decide)
    (by decide)

/-! ### Detector lemmas -/

/-- A member of a joined reason list occurs verbatim inside the join. -/
theorem joinSep_data_factor (sep : String) (rs : List String) (s : String) (h : s ∈ rs) :
    ∃ pre post : List Char, (joinSep sep rs).data = pre ++ s.data ++ post := by
  induction rs with
  | nil => cases h
  | cons a t ih =>
    rcases List.mem_cons.mp h with rfl | ht
    · cases t with
      | nil => exact ⟨[], [], by simp [joinSep]⟩
      | cons b t' =>
        refine ⟨[], (sep ++ joinSep sep (b :: t')).data, ?_⟩
        show (s ++ sep ++ joinSep sep (b :: t')).data = _
        simp [String.data_append]
    · cases t with
      | nil => cases ht
      | cons b t' =>
        obtain ⟨pre, post, hp⟩ := ih ht
        refine ⟨(a ++ sep).data ++ pre, post, ?_⟩
        show (a ++ sep ++ joinSep sep (b :: t')).data = _
        simp [String.data_append, hp]

theorem rapidFactor_le (cfg : DetectionCfg) (w : List DetectorEvent) :
    (rapidFactor cfg w).1 ≤ 30 := by
  unfold rapidFactor
  split <;> simp

theorem suspiciousFactor_le (cfg : DetectionCfg) (w : List DetectorEvent) :
    (suspiciousFactor cfg w).1 ≤ 20 := by
  unfold suspiciousFactor
  split <;> simp

theorem renameFactor_le (w : List DetectorEvent) : (renameFactor w).1 ≤ 10 := by
  unfold renameFactor
  split <;> simp

theorem entropyFactor_eq_ite (cfg : DetectionCfg) (entropyOf : String → Option ℚ)
    (w : List DetectorEvent) :
    (entropyFactor cfg entropyOf w).1
      = if entropyTriggered cfg entropyOf w then 40 else 0 := by
  unfold entropyFactor entropyTriggered
  cases hle : lastEntropy entropyOf w with
  | none => rfl
  | some e =>
    by_cases he : cfg.entropy_threshold < e
    · simp [he]
    · simp [he]

/-- C7: for a window of 51 events (rapid-change threshold 50) with no
suspicious extensions, no high-entropy latest file, and no mass-rename
pattern, `check_threat` scores exactly 30 and returns no alert (30 < 70);
with additionally 3 suspicious-extension events and a latest file whose
entropy exceeds the threshold, the score reaches at least 70 and an alert is
returned whose description contains all three triggered reasons. -/
theorem claim_C7_threat_threshold :
    (∀ (entropyOf : String → Option ℚ) (w : List DetectorEvent) (now : Nat),
      w.length = 51 →
      suspiciousCount defaultDetectionCfg w = 0 →
      entropyTriggered defaultDetectionCfg entropyOf w = false →
      detectMassRename w ≤ 5 →
      (checkThreatCore defaultDetectionCfg entropyOf w).1 = 30 ∧
      checkThreat defaultDetectionCfg entropyOf w now = none) ∧
    (∀ (entropyOf : String → Option ℚ) (w : List DetectorEvent) (now : Nat)
        (last : DetectorEvent) (e : ℚ),
      50 < w.length →
      suspiciousCount defaultDetectionCfg w = 3 →
      w.getLast? = some last →
      entropyOf last.path = some e →
      defaultDetectionCfg.entropy_threshold < e →
      70 ≤ (checkThreatCore defaultDetectionCfg entropyOf w).1 ∧
      ∃ a, checkThreat defaultDetectionCfg entropyOf w now = some a ∧
        70 ≤ a.score ∧
        (∃ pre post : List Char, a.description.data
          = pre ++ ("Rapid file changes detected: " ++ toString w.length
            ++ " files/min").data ++ post) ∧
        (∃ pre post : List Char, a.description.data
          = pre ++ ("Suspicious extensions: " ++ toString (3 : Nat) ++ " files").data ++ post) ∧
        (∃ pre post : List Char, a.description.data
          = pre ++ ("High entropy detected: " ++ toString e ++ " bits/byte").data ++ post)) := by
  constructor
  · intro entropyOf w now hlen hsc hent hren
    have hr : rapidFactor defaultDetectionCfg w
        = (30, ["Rapid file changes detected: " ++ toString w.length ++ " files/min"]) := by
      unfold rapidFactor
      rw [if_pos (by rw [hlen]; exact Nat.lt_succ_self 50)]
    have hs : suspiciousFactor defaultDetectionCfg w = (0, []) := by
      unfold suspiciousFactor
      rw [if_neg (by rw [hsc]; omega)]
    have he : (entropyFactor defaultDetectionCfg entropyOf w).1 = 0 := by
      rw [entropyFactor_eq_ite, hent]
      rfl
    have hm : renameFactor w = (0, []) := by
      unfold renameFactor
      rw [if_neg (by omega)]
    have hscore : (checkThreatCore defaultDetectionCfg entropyOf w).1 = 30 := by
      show (rapidFactor defaultDetectionCfg w).1 + _ + _ + _ = 30
      rw [hr, hs, hm, he]
      rfl
    refine ⟨hscore, ?_⟩
    unfold checkThreat
    rw [hscore, if_neg (by omega)]
  · intro entropyOf w now last e hlen hsc hlast he hthr
    have hr : rapidFactor defaultDetectionCfg w
        = (30, ["Rapid file changes detected: " ++ toString w.length ++ " files/min"]) := by
      unfold rapidFactor
      rw [if_pos (show defaultDetectionCfg.rapid_change_threshold < w.length from hlen)]
    have hs : suspiciousFactor defaultDetectionCfg w
        = (20, ["Suspicious extensions: " ++ toString (3 : Nat) ++ " files"]) := by
      unfold suspiciousFactor
      rw [hsc, if_pos (by omega)]
    have hle : lastEntropy entropyOf w = some e := by
      unfold lastEntropy
      rw [hlast]
      exact he
    have hef : entropyFactor defaultDetectionCfg entropyOf w
        = (40, ["High entropy detected: " ++ toString e ++ " bits/byte"]) := by
      unfold entropyFactor
      simp only [hle]
      rw [if_pos hthr]
    have hscore : (checkThreatCore defaultDetectionCfg entropyOf w).1
        = 90 + (renameFactor w).1 := by
      show (rapidFactor defaultDetectionCfg w).1 + _ + _ + _ = _
      rw [hr, hs, hef]
      omega
    have h70 : 70 ≤ (checkThreatCore defaultDetectionCfg entropyOf w).1 := by omega
    refine ⟨h70, ?_⟩
    have hreasons : (checkThreatCore defaultDetectionCfg entropyOf w).2
        = ["Rapid file changes detected: " ++ toString w.length ++ " files/min"]
          ++ ["Suspicious extensions: " ++ toString (3 : Nat) ++ " files"]
          ++ ["High entropy detected: " ++ toString e ++ " bits/byte"]
          ++ (renameFactor w).2 := by
      show (rapidFactor defaultDetectionCfg w).2 ++ _ ++ _ ++ _ = _
      rw [hr, hs, hef]
    refine ⟨{ timestamp := now
              score := (checkThreatCore defaultDetectionCfg entropyOf w).1
              description := joinSep "; " (checkThreatCore defaultDetectionCfg entropyOf w).2
              file_path := last.path
              threat_type := "Ransomware" }, ?_, ?_, ?_, ?_, ?_⟩
    · unfold checkThreat
      rw [if_pos h70, hlast]
    · exact h70
    · exact joinSep_data_factor "; " _ _ (by rw [hreasons]; simp)
    · exact joinSep_data_factor "; " _ _ (by rw [hreasons]; simp)
    · exact joinSep_data_factor "; " _ _ (by rw [hreasons]; simp)

/-- 51 extensionless events on path "p": rapid-change factor only. -/
def wC7A : List DetectorEvent := (List.range 51).map (fun _ => { path := "p", ext := none })

/-- The 51 events of `wC7A` plus 3 events with the suspicious extension
`.locked`, the last on path "s". -/
def wC7B : List DetectorEvent :=
  wC7A ++ [{ path := "s1", ext := some "locked" }, { path := "s2", ext := some "locked" },
           { path := "s", ext := some "locked" }]

/-- Witness for C7: the 51-event window with no other factor scores 30 and
fires no alert; the 54-event window with 3 suspicious extensions and entropy
8 > 7.5 on the latest file fires an alert carrying all three reasons. -/
theorem claim_C7_threat_threshold_witness :
    ((checkThreatCore defaultDetectionCfg (fun _ => none) wC7A).1 = 30 ∧
      checkThreat defaultDetectionCfg (fun _ => none) wC7A 0 = none) ∧
    (70 ≤ (checkThreatCore defaultDetectionCfg (fun _ => some 8) wC7B).1 ∧
      ∃ a, checkThreat defaultDetectionCfg (fun _ => some 8) wC7B 0 = some a ∧
        70 ≤ a.score ∧
        (∃ pre post : List Char, a.description.data
          = pre ++ ("Rapid file changes detected: " ++ toString wC7B.length
            ++ " files/min").data ++ post) ∧
        (∃ pre post : List Char, a.description.data
          = pre ++ ("Suspicious extensions: " ++ toString (3 : Nat) ++ " files").data ++ post) ∧
        (∃ pre post : List Char, a.description.data
          = pre ++ ("High entropy detected: " ++ toString (8 : ℚ)
            ++ " bits/byte").data ++ post)) :=
  ⟨claim_C7_threat_threshold.1 (fun _ => none) wC7A 0 (by decide) (by decide) rfl (by decide),
   claim_C7_threat_threshold.2 (fun _ => some 8) wC7B 0
     { path := "s", ext := some "locked" } 8
     (by decide) (by decide) (by decide) rfl (by norm_num [defaultDetectionCfg])⟩

/-- C9: `check_threat` can return an alert only when the entropy factor
triggered — the other three factors sum to at most 60, below the fixed
threshold 70 — so every emitted alert has a score of at least 70 that
includes the +40 entropy contribution. -/
theorem claim_C9_alert_needs_entropy (cfg : DetectionCfg) (entropyOf : String → Option ℚ)
    (w : List DetectorEvent) (now : Nat) (a : ThreatAlert)
    (h : checkThreat cfg entropyOf w now = some a) :
    entropyTriggered cfg entropyOf w = true ∧ 70 ≤ a.score ∧
    ∃ rest, rest ≤ 60 ∧ a.score = rest + 40 := by
  unfold checkThreat at h
  by_cases h70 : 70 ≤ (checkThreatCore cfg entropyOf w).1
  · rw [if_pos h70] at h
    cases hl : w.getLast? with
    | none =>
      simp only [hl] at h
      exact Option.noConfusion h
    | some last =>
      simp only [hl] at h
      have ha : a = { timestamp := now
                      score := (checkThreatCore cfg entropyOf w).1
                      description := joinSep "; " (checkThreatCore cfg entropyOf w).2
                      file_path := last.path
                      threat_type := "Ransomware" } := ((Option.some.injEq _ _).mp h).symm
      subst ha
      have hr := rapidFactor_le cfg w
      have hs := suspiciousFactor_le cfg w
      have hm := renameFactor_le w
      have hef := entropyFactor_eq_ite cfg entropyOf w
      have hcore : (checkThreatCore cfg entropyOf w).1
          = (rapidFactor cfg w).1 + (suspiciousFactor cfg w).1
            + (entropyFactor cfg entropyOf w).1 + (renameFactor w).1 := rfl
      by_cases het : entropyTriggered cfg entropyOf w = true
      · refine ⟨het, h70, ?_⟩
        refine ⟨(rapidFactor cfg w).1 + (suspiciousFactor cfg w).1 + (renameFactor w).1,
          by omega, ?_⟩
        show (checkThreatCore cfg entropyOf w).1 = _
        rw [hcore, hef, if_pos het]
        omega
      · exfalso
        rw [hef, if_neg het] at hcore
        omega
  · rw [if_neg h70] at h
    cases h

/-- Witness for C9: a 51-event window whose latest file measures entropy 8
fires an alert of score exactly 70 = 30 + 40, with the entropy factor
triggered. -/
theorem claim_C9_alert_needs_entropy_witness :
    entropyTriggered defaultDetectionCfg (fun _ => some 8) wC7A = true ∧
    70 ≤ (ThreatAlert.mk 5 70
      (joinSep "; " ["Rapid file changes detected: " ++ toString (51 : Nat) ++ " files/min",
        "High entropy detected: " ++ toString (8 : ℚ) ++ " bits/byte"])
      "p" "Ransomware").score ∧
    ∃ rest, rest ≤ 60 ∧
      (ThreatAlert.mk 5 70
        (joinSep "; " ["Rapid file changes detected: " ++ toString (51 : Nat) ++ " files/min",
          "High entropy detected: " ++ toString (8 : ℚ) ++ " bits/byte"])
        "p" "Ransomware").score = rest + 40 :=
  claim_C9_alert_needs_entropy defaultDetectionCfg (fun _ => some 8) wC7A 5
    (ThreatAlert.mk 5 70
      (joinSep "; " ["Rapid file changes detected: " ++ toString (51 : Nat) ++ " files/min",
        "High entropy detected: " ++ toString (8 : ℚ) ++ " bits/byte"])
      "p" "Ransomware")
    (by
      have h75 : (7.5 : ℚ) < 8 := by norm_num
      simp [checkThreat, checkThreatCore, rapidFactor, suspiciousFactor, entropyFactor,
        renameFactor, lastEntropy, suspiciousCount, detectMassRename, wC7A, h75, joinSep,
        defaultDetectionCfg])

end MedGuard
